import Mathlib

/-!
Verification of the maze-generation core of `puzzlebox.c` (PuzzleBox).

The definitions below are a shallow embedding of the maze-generation part of
`src/puzzlebox.c`: the flag constants and direction biases, the coordinate
wrapping and rotational-symmetry group query `test`, the frontier-walk maze
generator inside `makemaze` (its seeding, direction selection, queue policy,
exit tracking and entry-channel carving), the test-pattern mode, and the
per-slice boundary-advance routine `slice` of the mesh stitcher.

C `int` values are modelled as `Int` (all divisions and remainders taken in
the source act on non-negative operands, where Lean's `/` and `%` on `Int`
agree with C), flag bytes as `Nat` with the bitwise operations, and the maze
array as a total function `Int → Int → Nat` updated pointwise.  C `while`
loops are translated as fuel-bounded structural recursions; at every call
site the fuel passed is provably sufficient under the preconditions the
program establishes before the loop runs (noted at each definition), so the
translation computes exactly what the C loop computes there.
-/

namespace PuzzleBox

/-! ### Flags and direction biases (src/puzzlebox.c:21-31) -/

def FLAGL : Nat := 0x01

def FLAGR : Nat := 0x02

def FLAGU : Nat := 0x04

def FLAGD : Nat := 0x08

def FLAGA : Nat := 0x0F

def FLAGI : Nat := 0x80

def BIASL : Nat := 2

def BIASR : Nat := 1

def BIASU : Nat := 1

def BIASD : Nat := 4

/-! ### The maze array -/

/-- The maze array `unsigned char maze[W][H]`, as a total function; the
program only ever reads indices with `0 ≤ x < W` and `0 ≤ y < H`. -/
abbrev Maze := Int → Int → Nat

/-- `maze[x][y] |= f` (pointwise bitwise-or update). -/
def orFlag (m : Maze) (x y : Int) (f : Nat) : Maze :=
  fun a b => if a = x ∧ b = y then m a b ||| f else m a b

/-- `maze[x][y] += f` (the entry-carving loop uses `+=`, not `|=`;
src/puzzlebox.c:1080). -/
def addFlag (m : Maze) (x y : Int) (f : Nat) : Maze :=
  fun a b => if a = x ∧ b = y then m a b + f else m a b

/-! ### Coordinate wrapping (the two `while` loops opening `test`,
src/puzzlebox.c:853-862) -/

/-- The `while (x < 0) { x += W; y -= helix; }` loop, fuel-bounded.  For
`0 < W` the loop runs at most `(-x).toNat` times, so the fuel passed by
`wrap` is sufficient (the program aborts with "Too small" before `test` is
ever called when `W < 3`). -/
def wrapNegGo (W helix : Int) : Nat → Int → Int → Int × Int
  | 0, x, y => (x, y)
  | fuel + 1, x, y =>
      if x < 0 then wrapNegGo W helix fuel (x + W) (y - helix) else (x, y)

/-- The `while (x >= W) { x -= W; y += helix; }` loop, fuel-bounded; for
`0 < W` it runs at most `x.toNat` times. -/
def wrapPosGo (W helix : Int) : Nat → Int → Int → Int × Int
  | 0, x, y => (x, y)
  | fuel + 1, x, y =>
      if W ≤ x then wrapPosGo W helix fuel (x - W) (y + helix) else (x, y)

/-- The normalisation performed at the head of `test`
(src/puzzlebox.c:853-862): bring `x` into `[0, W)`, adjusting `y` by
`∓helix` for each crossing. -/
def wrap (W helix : Int) (x y : Int) : Int × Int :=
  let p := wrapNegGo W helix (Int.toNat (-x) + 1) x y
  wrapPosGo W helix (Int.toNat p.1 + 1) p.1 p.2

/-! ### The rotational-symmetry group query `test` (src/puzzlebox.c:851-883) -/

/-- The flag byte contributed by one physical copy: `FLAGI` when `y` is out
of range, the stored byte otherwise (src/puzzlebox.c:867-870). -/
def cellFlag (H : Int) (m : Maze) (x y : Int) : Nat :=
  if y < 0 ∨ H ≤ y then FLAGI else m x y

/-- One step from a physical copy to the next inside the group loop of
`test` (src/puzzlebox.c:873-880): `x += W / nubs`, then the
`while (x >= W) { x -= W; y += helix; }` wrap, then `y--` when
`helix == nubs`.  The wrap fuel `x.toNat + 1` is sufficient for `0 < W`. -/
def stepCopy (W helix nubs : Int) (p : Int × Int) : Int × Int :=
  let x := p.1 + W / nubs
  let q := wrapPosGo W helix (Int.toNat x + 1) x p.2
  (q.1, if helix = nubs then q.2 - 1 else q.2)

/-- The `while (n--)` accumulation loop of `test` (src/puzzlebox.c:863-882):
`n` copies contribute their flag bytes, with `n - 1` copy steps in between
(`if (!n) break;` skips the step after the last copy). -/
def testGo (W H helix nubs : Int) (m : Maze) : Nat → Int × Int → Nat
  | 0, _ => 0
  | 1, p => cellFlag H m p.1 p.2
  | n + 2, p =>
      cellFlag H m p.1 p.2 |||
        testGo W H helix nubs m (n + 1) (stepCopy W helix nubs p)

/-- `test (x, y)` — the group query: wrap, then OR the flag bytes of the
`nubs` rotationally-symmetric copies (src/puzzlebox.c:851-883). -/
def test (W H helix nubs : Int) (m : Maze) (x y : Int) : Nat :=
  testGo W H helix nubs m nubs.toNat (wrap W helix x y)

/-! ### Spec-side description of the group query (for claim C6)

These two definitions follow the specification's words ("walks the `nubs`
rotationally-symmetric copies of a logical cell, stepping by `W/nubs` in x,
wrapping as above, and decrementing y once per `W/nubs` step when
`helix == nubs`, and bitwise-ORs their stored flags, treating out-of-range y
as fully `Invalid`"); claim C6 is settled by proving them equal to `test`,
which is translated from the source. -/

/-- The list of the `n` rotationally-symmetric copies of a (wrapped) cell,
each obtained from the previous by one copy step. -/
def specCopies (W helix nubs : Int) : Nat → Int × Int → List (Int × Int)
  | 0, _ => []
  | n + 1, p => p :: specCopies W helix nubs n (stepCopy W helix nubs p)

/-- Spec-side group query: bitwise OR of the flag bytes stored at the
`nubs` copies, out-of-range rows contributing `FLAGI`. -/
def specGroupFlags (W H helix nubs : Int) (m : Maze) (x y : Int) : Nat :=
  ((specCopies W helix nubs nubs.toNat (wrap W helix x y)).map
      (fun q => cellFlag H m q.1 q.2)).foldr (· ||| ·) 0

/-! ### Basic bitwise-OR facts used throughout -/

theorem lor_foldr_init (l : List Nat) (a c : Nat) :
    l.foldr (· ||| ·) (a ||| c) = a ||| l.foldr (· ||| ·) c := by
  induction l with
  | nil => rfl
  | cons x xs ih =>
      simp only [List.foldr_cons, ih]
      rw [← Nat.lor_assoc, Nat.lor_comm x a, Nat.lor_assoc]

theorem and_lor_distrib (a b c : Nat) :
    (a ||| b) &&& c = (a &&& c) ||| (b &&& c) := by
  refine Nat.eq_of_testBit_eq fun j => ?_
  simp [Nat.testBit_lor, Nat.testBit_land, Bool.and_or_distrib_right]

/-- The group query as a fold over the copies list. -/
theorem testGo_spec (W H helix nubs : Int) (m : Maze) :
    ∀ (n : Nat) (p : Int × Int),
      testGo W H helix nubs m n p =
        ((specCopies W helix nubs n p).map
            (fun q => cellFlag H m q.1 q.2)).foldr (· ||| ·) 0
  | 0, _ => rfl
  | 1, p => by simp [testGo, specCopies]
  | n + 2, p => by
      rw [testGo, specCopies]
      simp only [List.map_cons, List.foldr_cons]
      rw [testGo_spec W H helix nubs m (n + 1) (stepCopy W helix nubs p)]

/-- Claim C6 (confirmed): the cell-group query `test` returns exactly the
bitwise OR of the stored flag bytes of the `nubs` rotationally-symmetric
copies of the queried logical cell — the copies being produced by stepping
`W/nubs` in x with helix wrapping and a `y` decrement per step when
`helix = nubs` — with every copy whose `y` falls outside `[0, H)`
contributing the `Invalid` flag. -/
theorem C6_theorem (W H helix nubs : Int) (m : Maze) (x y : Int) :
    test W H helix nubs m x y = specGroupFlags W H helix nubs m x y :=
  testGo_spec W H helix nubs m nubs.toNat (wrap W helix x y)

/-! ### Claim C3: the direction bias constants -/

/-- Claim C3 counterexample: the claim states that the rightward weight
exceeds the leftward weight, but in the source `BIASR = 1 < 2 = BIASL`. -/
theorem C3_counterexample : ¬(BIASR > BIASL ∧ BIASD > BIASU) := by decide

/-- Claim C3 (amended): the per-direction weights used for the random
direction choice prefer leftward over rightward and downward over upward
moves (`BIASL = 2 > 1 = BIASR` and `BIASD = 4 > 1 = BIASU`). -/
theorem C3_theorem : BIASL > BIASR ∧ BIASD > BIASU := by decide

/-! ### Unfolding lemmas for the wrap loops -/

theorem wrapNegGo_stop (W helix : Int) (fuel : Nat) (x y : Int) (h : 0 ≤ x) :
    wrapNegGo W helix (fuel + 1) x y = (x, y) := by
  rw [wrapNegGo, if_neg (by omega)]

theorem wrapPosGo_stop (W helix : Int) (fuel : Nat) (x y : Int) (h : x < W) :
    wrapPosGo W helix (fuel + 1) x y = (x, y) := by
  rw [wrapPosGo, if_neg (by omega)]

theorem wrapNegGo_once (W helix : Int) (fuel : Nat) (x y : Int)
    (h1 : x < 0) (h2 : 0 ≤ x + W) :
    wrapNegGo W helix (fuel + 2) x y = (x + W, y - helix) := by
  rw [wrapNegGo, if_pos h1, wrapNegGo_stop W helix fuel _ _ h2]

theorem wrapPosGo_once (W helix : Int) (fuel : Nat) (x y : Int)
    (h1 : W ≤ x) (h2 : x - W < W) :
    wrapPosGo W helix (fuel + 2) x y = (x - W, y + helix) := by
  rw [wrapPosGo, if_pos h1, wrapPosGo_stop W helix fuel _ _ h2]

/-- `wrap` is the identity on already-normalised coordinates. -/
theorem wrap_id (W helix : Int) (x y : Int) (h1 : 0 ≤ x) (h2 : x < W) :
    wrap W helix x y = (x, y) := by
  simp only [wrap]
  rw [wrapNegGo_stop W helix _ x y h1]
  exact wrapPosGo_stop W helix _ x y h2

/-- Claim C4 (confirmed): for every cell coordinate `x ∈ [0, W)`, wrapping
`x + W` yields `(x, y + helix)` and wrapping `x - W` yields
`(x, y - helix)`: each crossing of the angular seam adjusts `y` by
plus or minus `helix`. -/
theorem C4_theorem (W helix x y : Int) (hW : 0 < W) (h0 : 0 ≤ x)
    (h1 : x < W) :
    wrap W helix (x + W) y = (x, y + helix) ∧
      wrap W helix (x - W) y = (x, y - helix) := by
  constructor
  · simp only [wrap]
    rw [wrapNegGo_stop W helix _ _ y (by omega)]
    have hk : ∃ k, Int.toNat (x + W) + 1 = k + 2 := ⟨Int.toNat (x + W) - 1, by omega⟩
    obtain ⟨k, hk⟩ := hk
    rw [hk, wrapPosGo_once W helix k _ y (by omega) (by omega)]
    congr 1
    omega
  · simp only [wrap]
    have hk : ∃ k, Int.toNat (-(x - W)) + 1 = k + 2 := ⟨Int.toNat (-(x - W)) - 1, by omega⟩
    obtain ⟨k, hk⟩ := hk
    rw [hk, wrapNegGo_once W helix k _ y (by omega) (by omega)]
    rw [wrapPosGo_stop W helix _ _ _ (by omega)]
    congr 1
    omega

/-- Witness for C4 at `W = 5`, `helix = 3`, cell `(2, 7)`. -/
theorem C4_witness :
    wrap 5 3 (2 + 5) 7 = (2, 7 + 3) ∧ wrap 5 3 (2 - 5) 7 = (2, 7 - 3) :=
  C4_theorem 5 3 2 7 (by decide) (by decide) (by decide)

/-! ### Rotational symmetry of the group query (for claim C1's amendment)

The maze generator's writes go to single physical cells, but all its
movement decisions go through `test`, which aggregates over the whole
symmetry group.  The lemmas below show that the copy step is a cyclic
permutation of the group (for the configurations the program produces,
where `nubs` divides `W` and `helix` is `0` or `nubs`), hence `test`
reports the same aggregated mask at every physical copy. -/

theorem ediv_facts (W nubs : Int) (h0 : 0 < nubs) (hdvd : nubs ∣ W)
    (hW : 0 < W) : 1 ≤ W / nubs ∧ W / nubs ≤ W ∧ W / nubs * nubs = W := by
  have hmul : W / nubs * nubs = W := Int.ediv_mul_cancel hdvd
  have hw1 : 1 ≤ W / nubs := by
    by_contra hcon
    have hle : W / nubs ≤ 0 := by omega
    have : W / nubs * nubs ≤ 0 * nubs :=
      mul_le_mul_of_nonneg_right hle (le_of_lt h0)
    omega
  refine ⟨hw1, ?_, hmul⟩
  have : W / nubs * 1 ≤ W / nubs * nubs :=
    mul_le_mul_of_nonneg_left (by omega) (by omega)
  omega

/-- Closed form of one copy step on normalised coordinates: `x` advances by
`W / nubs`, wrapping at most once. -/
theorem stepCopy_formula (W helix nubs x y : Int) (hw2 : W / nubs ≤ W)
    (hx0 : 0 ≤ x) (hx1 : x < W) :
    stepCopy W helix nubs (x, y) =
      if x + W / nubs < W then
        (x + W / nubs, if helix = nubs then y - 1 else y)
      else
        (x + W / nubs - W, if helix = nubs then y + helix - 1 else y + helix) := by
  simp only [stepCopy]
  by_cases hc : x + W / nubs < W
  · rw [wrapPosGo_stop W helix _ _ _ hc, if_pos hc]
  · have h2 : W ≤ x + W / nubs := by omega
    obtain ⟨k, hk⟩ : ∃ k, Int.toNat (x + W / nubs) + 1 = k + 2 :=
      ⟨Int.toNat (x + W / nubs) - 1, by omega⟩
    rw [hk, wrapPosGo_once W helix k _ _ h2 (by omega), if_neg hc]

/-- The copy-step orbit: after `k ≤ nubs` steps from a normalised cell the
`x` coordinate has advanced by `k * (W / nubs)`, wrapping exactly once as
soon as that offset carries it past `W`. -/
theorem stepCopy_iter (W helix nubs : Int) (h0 : 0 < nubs) (hdvd : nubs ∣ W)
    (hW : 0 < W) :
    ∀ (k : Nat) (x y : Int), 0 ≤ x → x < W →
      (k : Int) * (W / nubs) + x < W + W →
      ((W ≤ (k : Int) * (W / nubs) + x →
          (stepCopy W helix nubs)^[k] (x, y) =
            ((k : Int) * (W / nubs) + x - W,
              y + helix - (if helix = nubs then (k : Int) else 0))) ∧
        ((k : Int) * (W / nubs) + x < W →
          (stepCopy W helix nubs)^[k] (x, y) =
            ((k : Int) * (W / nubs) + x,
              y - (if helix = nubs then (k : Int) else 0)))) := by
  obtain ⟨hw1, hw2, hmul⟩ := ediv_facts W nubs h0 hdvd hW
  intro k
  induction k with
  | zero =>
      intro x y hx0 hx1 hlt
      constructor
      · intro hge
        simp only [Nat.cast_zero, zero_mul, zero_add] at hge
        omega
      · intro _
        simp only [Function.iterate_zero, id_eq, Nat.cast_zero, zero_mul,
          zero_add]
        norm_num
  | succ k ih =>
      intro x y hx0 hx1 hlt
      have hcast : ((k + 1 : Nat) : Int) * (W / nubs) =
          (k : Int) * (W / nubs) + W / nubs := by push_cast; ring
      have hknn : 0 ≤ (k : Int) * (W / nubs) :=
        mul_nonneg (by positivity) (by omega)
      rw [Function.iterate_succ_apply,
        stepCopy_formula W helix nubs x y hw2 hx0 hx1]
      by_cases hc : x + W / nubs < W
      · rw [if_pos hc]
        have IH := ih (x + W / nubs) (if helix = nubs then y - 1 else y)
          (by omega) hc (by rw [hcast] at hlt; omega)
        constructor
        · intro hge
          rw [hcast] at hge hlt
          rw [IH.1 (by omega)]
          simp only [Prod.mk.injEq]
          constructor
          · omega
          · by_cases hhn : helix = nubs <;> simp only [hhn, if_true, if_false,
              if_pos, if_neg, ite_true, ite_false] <;> push_cast <;> omega
        · intro hlt2
          rw [hcast] at hlt2
          rw [IH.2 (by omega)]
          simp only [Prod.mk.injEq]
          constructor
          · omega
          · by_cases hhn : helix = nubs <;> simp only [hhn, ite_true,
              ite_false] <;> push_cast <;> omega
      · rw [if_neg hc]
        have IH := ih (x + W / nubs - W)
          (if helix = nubs then y + helix - 1 else y + helix)
          (by omega) (by omega) (by rw [hcast] at hlt; omega)
        constructor
        · intro hge
          rw [hcast] at hlt
          rw [IH.2 (by omega)]
          simp only [Prod.mk.injEq]
          constructor
          · rw [hcast]; omega
          · by_cases hhn : helix = nubs <;> simp only [hhn, ite_true,
              ite_false] <;> push_cast <;> omega
        · intro hlt2
          exfalso
          rw [hcast] at hlt2
          omega

/-- After exactly `nubs` copy steps a normalised cell returns to itself
(for the configurations the program produces: `nubs ∣ W` and `helix` equal
to `0` or to `nubs`). -/
theorem stepCopy_cycle (W helix nubs : Int) (h0 : 0 < nubs)
    (hdvd : nubs ∣ W) (hh : helix = 0 ∨ helix = nubs) (x y : Int)
    (hx0 : 0 ≤ x) (hx1 : x < W) :
    (stepCopy W helix nubs)^[nubs.toNat] (x, y) = (x, y) := by
  have hW : 0 < W := lt_of_le_of_lt hx0 hx1
  obtain ⟨hw1, hw2, hmul⟩ := ediv_facts W nubs h0 hdvd hW
  have hn : ((nubs.toNat : Nat) : Int) = nubs := Int.toNat_of_nonneg (by omega)
  have hprod : ((nubs.toNat : Nat) : Int) * (W / nubs) = W := by
    rw [hn, mul_comm]; exact hmul
  have key := (stepCopy_iter W helix nubs h0 hdvd hW nubs.toNat x y hx0 hx1
    (by rw [hprod]; omega)).1 (by rw [hprod]; omega)
  rw [key, hprod]
  simp only [Prod.mk.injEq]
  constructor
  · omega
  · rcases hh with h | h
    · rw [if_neg (by omega)]; omega
    · rw [if_pos h, hn]; omega

/-- The copy step keeps normalised `x` coordinates normalised. -/
theorem stepCopy_range (W helix nubs x y : Int) (hw1 : 1 ≤ W / nubs)
    (hw2 : W / nubs ≤ W) (hx0 : 0 ≤ x) (hx1 : x < W) :
    0 ≤ (stepCopy W helix nubs (x, y)).1 ∧
      (stepCopy W helix nubs (x, y)).1 < W := by
  rw [stepCopy_formula W helix nubs x y hw2 hx0 hx1]
  by_cases hc : x + W / nubs < W
  · rw [if_pos hc]; constructor <;> simp <;> omega
  · rw [if_neg hc]; constructor <;> simp <;> omega

theorem specCopies_snoc (W helix nubs : Int) :
    ∀ (n : Nat) (p : Int × Int),
      specCopies W helix nubs (n + 1) p =
        specCopies W helix nubs n p ++ [(stepCopy W helix nubs)^[n] p] := by
  intro n
  induction n with
  | zero => intro p; simp [specCopies]
  | succ n ih =>
      intro p
      rw [specCopies, ih (stepCopy W helix nubs p),
        ← Function.iterate_succ_apply]
      rw [specCopies]
      simp

/-- Claim C1 (amended): for `nubs > 1` the stored per-cell masks of the
physical copies need not coincide (the generator writes to single physical
cells; see `C1_counterexample`), but the group-aggregated open-edge mask —
the value of `test`, which is what every movement decision and every
geometry emission reads — is identical at a logical cell and at its next
rotational copy, hence at all `nubs` copies. -/
theorem C1_theorem (W H helix nubs : Int) (m : Maze) (x y : Int)
    (h0 : 0 < nubs) (hdvd : nubs ∣ W) (hh : helix = 0 ∨ helix = nubs)
    (hx0 : 0 ≤ x) (hx1 : x < W) :
    test W H helix nubs m (stepCopy W helix nubs (x, y)).1
        (stepCopy W helix nubs (x, y)).2 =
      test W H helix nubs m x y := by
  have hW : 0 < W := lt_of_le_of_lt hx0 hx1
  obtain ⟨hw1, hw2, hmul⟩ := ediv_facts W nubs h0 hdvd hW
  obtain ⟨hr0, hr1⟩ := stepCopy_range W helix nubs x y hw1 hw2 hx0 hx1
  obtain ⟨k, hk⟩ : ∃ k, nubs.toNat = k + 1 := ⟨nubs.toNat - 1, by omega⟩
  have hstep : (stepCopy W helix nubs (x, y)).1 =
      (stepCopy W helix nubs (x, y)).1 := rfl
  unfold test
  rw [wrap_id W helix x y hx0 hx1,
    wrap_id W helix _ _ hr0 hr1]
  rw [testGo_spec, testGo_spec, hk]
  have hsnoc := specCopies_snoc W helix nubs k
    (stepCopy W helix nubs (x, y))
  have hcyc : (stepCopy W helix nubs)^[k] (stepCopy W helix nubs (x, y)) =
      (x, y) := by
    have hc := stepCopy_cycle W helix nubs h0 hdvd hh x y hx0 hx1
    rw [hk] at hc
    rw [← Function.iterate_succ_apply]
    exact hc
  have hpair : ((stepCopy W helix nubs (x, y)).1,
      (stepCopy W helix nubs (x, y)).2) = stepCopy W helix nubs (x, y) := rfl
  rw [hpair, hsnoc, hcyc]
  rw [specCopies]
  simp only [List.map_append, List.map_cons, List.map_nil, List.foldr_append,
    List.foldr_cons, List.foldr_nil]
  rw [lor_foldr_init]

/-- Witness for the amended C1 at `W = 6`, `H = 4`, `helix = 0`,
`nubs = 3`, on a maze with a single flag at `(0, 1)`: the aggregated mask
at `(0, 1)` and at its copy `(2, 1)` agree. -/
theorem C1_witness :
    test 6 4 0 3 (fun a b => if a = 0 ∧ b = 1 then FLAGR else 0)
        (stepCopy 6 0 3 (0, 1)).1 (stepCopy 6 0 3 (0, 1)).2 =
      test 6 4 0 3 (fun a b => if a = 0 ∧ b = 1 then FLAGR else 0) 0 1 :=
  C1_theorem 6 4 0 3 (fun a b => if a = 0 ∧ b = 1 then FLAGR else 0) 0 1
    (by decide) (by decide) (Or.inl rfl) (by decide) (by decide)

/-! ### The pseudo-random source (src/puzzlebox.c:80-102)

The global `rng_state` is modelled by explicit state passing (the time-based
seeding of `seed_rng` is an external input).  `random_int` advances the
32-bit LCG and reduces the middle bits modulo `limit`. -/

def lcg (s : Nat) : Nat := (s * 1103515245 + 12345) % 4294967296

/-- `random_int` (src/puzzlebox.c:94-102): returns the new state and the
drawn value `((state / 65536) % 32768) % limit` (0 when `limit ≤ 0`). -/
def random_int (s : Nat) (limit : Int) : Nat × Int :=
  if limit ≤ 0 then (s, 0)
  else
    let s2 := lcg s
    (s2, ((s2 / 65536 % 32768 : Nat) : Int) % limit)

/-! ### The maze generator of `makemaze` (src/puzzlebox.c:827-1081)

The generator is modelled for the default `parkvertical = 0` configuration
(the horizontal final-park seeding of src/puzzlebox.c:911-925).  The
initial `FLAGI` marking of the rows outside the usable height band
(src/puzzlebox.c:888-892, floating-point geometry) enters the model as the
initial maze `m0`.  Random draws enter as a stream of raw pre-modulus
values (the `(rng_state / 65536) % 32768` of `random_int`); each loop
iteration consumes one draw for the direction choice and one for the
queue-insertion policy, exactly as the source calls `random_int`. -/

/-- The parameters `makemaze` works with: grid sizes, helix/nub counts and
the flags that influence generation. -/
structure Params where
  W : Int
  H : Int
  helix : Int
  nubs : Int
  flip : Bool
  inside : Bool
  noa : Bool
  testmaze : Bool
  mazecomplexity : Int

/-- The group query with the parameter bundle. -/
def testP (P : Params) (m : Maze) (x y : Int) : Nat :=
  test P.W P.H P.helix P.nubs m x y

/-- A frontier node `pos_t` (src/puzzlebox.c:950-957): coordinates plus
depth from the entry. -/
structure Pos where
  x : Int
  y : Int
  n : Nat
deriving DecidableEq, Repr

/-- A record of one successful expansion (model-level trace): the newly
connected cell, the depth `p->n` of the node that discovered it, and
whether it passed the exit-eligibility check of src/puzzlebox.c:1028-1029. -/
structure Discovery where
  x : Int
  y : Int
  depth : Nat
  qual : Bool
deriving DecidableEq, Repr

/-- The mutable state of the generation loop: the maze array, the work
queue (`pos`/`last` linked list as a list, head = `pos`), and the exit
tracker `max`/`maxx`. -/
structure GenState where
  maze : Maze
  queue : List Pos
  max : Nat
  maxx : Int

/-- The four direction moves (in the order the source tests them). -/
inductive Dir where
  | right
  | left
  | down
  | up
deriving DecidableEq, Repr

/-- The summed direction weights `n` (src/puzzlebox.c:977-986), given the
four closed-neighbour tests. -/
def nAvailB (aR aL aD aU : Bool) : Nat :=
  (if aR then BIASR else 0) + (if aL then BIASL else 0) +
    (if aD then BIASD else 0) + (if aU then BIASU else 0)

/-- Whether a direction is available (its `!test(...)` precondition). -/
def dirAvail (aR aL aD aU : Bool) : Dir → Bool
  | .right => aR
  | .left => aL
  | .down => aD
  | .up => aU

/-- The weighted direction selection chain of src/puzzlebox.c:993-1026:
`v -= BIAS` happens only when the guard before it held (C short-circuit
`&&`), and `none` is the final `fatal ("Unexpected maze path")` branch. -/
def pickDir (aR aL aD aU : Bool) (v : Int) : Option Dir :=
  if aR ∧ v - (BIASR : Int) < 0 then some .right
  else
    let v1 := if aR then v - (BIASR : Int) else v
    if aL ∧ v1 - (BIASL : Int) < 0 then some .left
    else
      let v2 := if aL then v1 - (BIASL : Int) else v1
      if aD ∧ v2 - (BIASD : Int) < 0 then some .down
      else
        let v3 := if aD then v2 - (BIASD : Int) else v2
        if aU ∧ v3 - (BIASU : Int) < 0 then some .up
        else none

/-- The mutual edge recording of a move (src/puzzlebox.c:995-1024): open
the edge on the current cell, step (with the one-shot seam wrap), open the
opposite edge on the new cell.  Returns the new maze and position. -/
def applyMove (W helix : Int) (m : Maze) (X Y : Int) : Dir → Maze × Int × Int
  | .right =>
      let m1 := orFlag m X Y FLAGR
      let q := if W ≤ X + 1 then (X + 1 - W, Y + helix) else (X + 1, Y)
      (orFlag m1 q.1 q.2 FLAGL, q.1, q.2)
  | .left =>
      let m1 := orFlag m X Y FLAGL
      let q := if X - 1 < 0 then (X - 1 + W, Y - helix) else (X - 1, Y)
      (orFlag m1 q.1 q.2 FLAGR, q.1, q.2)
  | .down =>
      let m1 := orFlag m X Y FLAGD
      (orFlag m1 X (Y - 1) FLAGU, X, Y - 1)
  | .up =>
      let m1 := orFlag m X Y FLAGU
      (orFlag m1 X (Y + 1) FLAGD, X, Y + 1)

/-- The queue-insertion policy of src/puzzlebox.c:1040-1069: ONE drawn
value `v = random_int(10)` first places the newly discovered node `next`
at the front (`v < |mazecomplexity|`) or the back, then — the same `v` —
places the current node `p` at the front (`mazecomplexity ≤ 0` and
`v < -mazecomplexity`) or the back. -/
def requeue (mazecomplexity : Int) (v : Nat) (p next : Pos)
    (q : List Pos) : List Pos :=
  let q1 :=
    if (v : Int) < (if mazecomplexity < 0 then -mazecomplexity
      else mazecomplexity) then next :: q
    else q ++ [next]
  if mazecomplexity ≤ 0 ∧ (v : Int) < -mazecomplexity then p :: q1
  else q1 ++ [p]

/-- One iteration of the frontier loop (src/puzzlebox.c:965-1070) on a
popped node `p` with remaining queue `rest`: compute the weighted choice
among closed-neighbour directions, discard the node if none (`n = 0`),
otherwise move, record the mutual edges, track the exit candidate and
requeue.  `none` models the `fatal ("Unexpected maze path")` exit;
`r1`, `r2` are the two raw random draws of the iteration. -/
def genStep (P : Params) (r1 r2 : Nat) (p : Pos) (rest : List Pos)
    (st : GenState) : Option (GenState × Option Discovery) :=
  let aR := decide (testP P st.maze (p.x + 1) p.y = 0)
  let aL := decide (testP P st.maze (p.x - 1) p.y = 0)
  let aD := decide (testP P st.maze p.x (p.y - 1) = 0)
  let aU := decide (testP P st.maze p.x (p.y + 1) = 0)
  let n := nAvailB aR aL aD aU
  if n = 0 then some ({ st with queue := rest }, none)
  else
    match pickDir aR aL aD aU ((r1 % n : Nat) : Int) with
    | none => none
    | some d =>
        let r := applyMove P.W P.helix st.maze p.x p.y d
        let qual := decide (testP P r.1 r.2.1 (r.2.2 + 1) &&& FLAGI ≠ 0) &&
          (!P.flip || P.inside || decide (r.2.1 % (P.W / P.nubs) = 0))
        let max2 := if p.n > st.max ∧ qual then p.n else st.max
        let maxx2 := if p.n > st.max ∧ qual then r.2.1 else st.maxx
        let q2 := requeue P.mazecomplexity (r2 % 10) p
          ⟨r.2.1, r.2.2, p.n + 1⟩ rest
        some ({ maze := r.1, queue := q2, max := max2, maxx := maxx2 },
          some ⟨r.2.1, r.2.2, p.n, qual⟩)

/-- The `while (pos)` loop (src/puzzlebox.c:965-1070), fuel-bounded (the C
loop terminates because every successful iteration opens an edge; the fuel
is a model bound on the iteration count).  Returns the final state, the
trace of successful expansions, and whether the queue emptied within the
fuel. -/
def genRun (P : Params) (rng : Nat → Nat × Nat) :
    Nat → Nat → GenState → Except String (GenState × List Discovery × Bool)
  | 0, _, st => .ok (st, [], false)
  | fuel + 1, i, st =>
      match st.queue with
      | [] => .ok (st, [], true)
      | p :: rest =>
          match genStep P (rng i).1 (rng i).2 p rest st with
          | none => .error "Unexpected maze path"
          | some (st2, d) =>
              match genRun P rng fuel (i + 1) st2 with
              | .error e => .error e
              | .ok (stf, tr, done) => .ok (stf, d.toList ++ tr, done)

/-- The final-park seeding for the default horizontal park
(src/puzzlebox.c:911-925): the forced edge pair `maze[0][helix+1] |= FLAGR`,
`maze[1][helix+1] |= FLAGL`, plus the decorative "A" motif when it fits.
Returns the maze and the start position `(X, Y)` of the walk. -/
def seedMaze (P : Params) (m0 : Maze) : Maze × Int × Int :=
  let m2 := orFlag (orFlag m0 0 (P.helix + 1) FLAGR) 1 (P.helix + 1) FLAGL
  if ¬P.inside ∧ ¬P.noa ∧ P.W / P.nubs > 3 ∧ P.H > P.helix + 3 then
    let m3 := orFlag m2 1 (P.helix + 1) (FLAGL ||| FLAGR ||| FLAGU)
    let m4 := orFlag m3 2 (P.helix + 1) (FLAGL ||| FLAGU)
    let m5 := orFlag m4 2 (P.helix + 2) (FLAGL ||| FLAGD)
    let m6 := orFlag m5 1 (P.helix + 2) (FLAGL ||| FLAGR ||| FLAGD)
    let m7 := orFlag m6 0 (P.helix + 2) FLAGR
    (m7, 0, P.helix + 2)
  else (m2, 1, P.helix + 1)

/-- The per-column carving loop of the entry channel
(src/puzzlebox.c:1077-1080): from `Y = H - 1` walk down through the
`FLAGI` run or-ing `FLAGU + FLAGD`, then `maze[X][Y] += FLAGU` (the source
uses `+=` here, hence `addFlag`).  The countdown index is the current `Y`
(which starts at `H - 1 ≥ 0` and stops at 0, so a `Nat` countdown is
exact). -/
def carveCol (m : Maze) (X : Int) : Nat → Maze
  | 0 => addFlag m X 0 FLAGU
  | y + 1 =>
      if m X ((y : Int) + 1) &&& FLAGI ≠ 0 then
        carveCol (orFlag m X ((y : Int) + 1) (FLAGU + FLAGD)) X y
      else addFlag m X ((y : Int) + 1) FLAGU

/-- The `for (X = maxx % (W / nubs); X < W; X += W / nubs)` loop
(src/puzzlebox.c:1075-1081), fuel-bounded (for `W / nubs ≥ 1` it runs at
most `W` times, so the fuel passed by `carve` is sufficient). -/
def carveColsGo (P : Params) : Nat → Maze → Int → Maze
  | 0, m, _ => m
  | fuel + 1, m, X =>
      if X < P.W then
        carveColsGo P fuel (carveCol m X (P.H - 1).toNat) (X + P.W / P.nubs)
      else m

/-- Entry-channel carving over all symmetric columns of the exit column. -/
def carve (P : Params) (m : Maze) (maxx : Int) : Maze :=
  carveColsGo P (P.W.toNat + 1) m (maxx % (P.W / P.nubs))

/-! ### Test-pattern mode (src/puzzlebox.c:928-946) -/

/-- The one-shot seam wrap applied to a cell's right neighbour
(src/puzzlebox.c:936-941). -/
def wrapR (P : Params) (c : Int × Int) : Int × Int :=
  if P.W ≤ c.1 + 1 then (c.1 + 1 - P.W, c.2 + P.helix) else (c.1 + 1, c.2)

/-- The validity test of the test-pattern branch (src/puzzlebox.c:932):
neither the cell group nor its right-neighbour group reports `FLAGI`. -/
abbrev pairValid (P : Params) (m : Maze) (X Y : Int) : Prop :=
  testP P m X Y &&& FLAGI = 0 ∧ testP P m (X + 1) Y &&& FLAGI = 0

/-- One cell of the test pattern: when the pair is valid, open the
rightward edge here and the leftward edge on the (seam-wrapped) right
neighbour. -/
def testStep (P : Params) (m : Maze) (X Y : Int) : Maze :=
  if pairValid P m X Y then
    orFlag (orFlag m X Y FLAGR) (wrapR P (X, Y)).1 (wrapR P (X, Y)).2 FLAGL
  else m

/-- The scan order of the test pattern: `Y` outer, `X` inner
(src/puzzlebox.c:930-931). -/
def cellList (W H : Int) : List (Int × Int) :=
  (List.range H.toNat).flatMap fun Y =>
    (List.range W.toNat).map fun X => (Int.ofNat X, Int.ofNat Y)

/-- The whole test-pattern fill. -/
def testFill (P : Params) (m : Maze) : Maze :=
  (cellList P.W P.H).foldl (fun mm c => testStep P mm c.1 c.2) m

/-- The test-pattern `maxx` scan (src/puzzlebox.c:944-946), fuel-bounded. -/
def testMaxxGo (P : Params) (m : Maze) : Nat → Int → Int
  | 0, maxx => maxx
  | fuel + 1, maxx =>
      if maxx + 1 < P.W ∧ testP P m (maxx + 1) (P.H - 2) &&& FLAGI = 0 then
        testMaxxGo P m fuel (maxx + 1)
      else maxx

/-- `maxx` after test-pattern mode. -/
def testMaxx (P : Params) (m : Maze) : Int :=
  if !P.flip || P.inside then testMaxxGo P m P.W.toNat 0 else 0

/-! ### `makemaze` up to the end of maze generation -/

/-- The outcome of `makemaze`'s generation phase: the final maze (after
entry-channel carving), the exit tracker, the entry angle
`(double) 360 * maxx / W` (src/puzzlebox.c:1073, exact rational value),
and the model-level expansion trace. -/
structure MazeResult where
  maze : Maze
  maxx : Int
  max : Nat
  entrya : ℚ
  trace : List Discovery
  complete : Bool

/-- The generation phase of `makemaze` (src/puzzlebox.c:836-1081): the
"Too small" size check (which precedes every point emission — the
`polyhedron` output starts at src/puzzlebox.c:1127), the final-park
seeding, then either the test pattern or the randomized frontier walk,
then the exit-angle computation and entry-channel carving. -/
def makemaze (P : Params) (m0 : Maze) (rng : Nat → Nat × Nat)
    (fuel : Nat) : Except String MazeResult :=
  if P.W < 3 ∨ P.H < 1 then .error "Too small"
  else
    let s := seedMaze P m0
    if P.testmaze then
      let m2 := testFill P s.1
      let mx := testMaxx P m2
      .ok ⟨carve P m2 mx, mx, 0, 360 * (mx : ℚ) / (P.W : ℚ), [], true⟩
    else
      match genRun P rng fuel 0 ⟨s.1, [⟨s.2.1, s.2.2, 0⟩], 0, 0⟩ with
      | .error e => .error e
      | .ok (st, tr, done) =>
          if done then
            .ok ⟨carve P st.maze st.maxx, st.maxx, st.max,
              360 * (st.maxx : ℚ) / (P.W : ℚ), tr, true⟩
          else .error "model: fuel exhausted"

/-! ### Claim C2: the queue-insertion policy -/

/-- Concrete frontier nodes used in closed statements. -/
def pA : Pos := ⟨0, 0, 0⟩

def pB : Pos := ⟨1, 1, 1⟩

def pC : Pos := ⟨9, 9, 9⟩

/-- Claim C2 counterexample: at `mazecomplexity = -5` the claim predicts
two independently drawn values, each sending its node to the front with
probability 5/10 — so all four front/back combinations, in particular
"new node at the front, current node at the back" (`[pB, pC, pA]`), would
occur.  In the source one single draw `v = random_int(10)` controls both
insertions: enumerating every possible `v < 10` shows the two decisions
always coincide (`v < 5` gives `[pA, pB, pC]`, both at the front;
`v ≥ 5` gives `[pC, pB, pA]`, both at the back), never a mixed order. -/
theorem C2_counterexample :
    (List.range 10).map (fun v => requeue (-5) v pA pB [pC]) =
      [[pA, pB, pC], [pA, pB, pC], [pA, pB, pC], [pA, pB, pC], [pA, pB, pC],
        [pC, pB, pA], [pC, pB, pA], [pC, pB, pA], [pC, pB, pA],
        [pC, pB, pA]] := by decide

/-- Claim C2 (amended): in each frontier expansion a single uniform draw
`v = random_int(10)` controls both insertions: the new node goes to the
front iff `v < |complexity|`, and (only when `complexity ≤ 0`) the current
node goes to the front iff `v < -complexity` — the same condition on the
same value, so for `complexity ≤ 0` the two front-insertions always
coincide instead of being independent; for `complexity > 0` the current
node is always re-queued at the back. -/
theorem C2_theorem (c : Int) (v : Nat) (p next : Pos) (q : List Pos) :
    (c ≤ 0 → requeue c v p next q =
      if (v : Int) < -c then p :: next :: q else (q ++ [next]) ++ [p]) ∧
    (0 < c → requeue c v p next q =
      (if (v : Int) < c then next :: q else q ++ [next]) ++ [p]) := by
  constructor
  · intro hc
    unfold requeue
    have habs : (if c < 0 then -c else c) = -c := by split <;> omega
    rw [habs]
    by_cases hv : (v : Int) < -c
    · rw [if_pos hv, if_pos ⟨hc, hv⟩, if_pos hv]
    · rw [if_neg hv, if_neg (by tauto), if_neg hv]
  · intro hc
    unfold requeue
    have habs : (if c < 0 then -c else c) = c := by split <;> omega
    rw [habs, if_neg (by omega)]

/-- Witness for the amended C2: at `complexity = -5`, `v = 3`, both nodes
are front-inserted. -/
theorem C2_witness : requeue (-5) 3 pA pB [] = pA :: pB :: [] := by
  rw [(C2_theorem (-5) 3 pA pB []).1 (by decide)]
  decide

/-! ### Claim C5: the direction draw always lands on an available branch -/

theorem pickDir_none_ge (aR aL aD aU : Bool) (v : Int) (h0 : 0 ≤ v)
    (h : pickDir aR aL aD aU v = none) :
    (nAvailB aR aL aD aU : Int) ≤ v := by
  simp only [pickDir] at h
  split_ifs at h <;>
    first
      | exact Option.noConfusion h
      | (cases aU <;> simp_all [nAvailB, BIASR, BIASL, BIASD, BIASU] <;>
          omega)

theorem pickDir_avail (aR aL aD aU : Bool) (v : Int) (d : Dir)
    (h : pickDir aR aL aD aU v = some d) :
    dirAvail aR aL aD aU d = true := by
  simp only [pickDir] at h
  split_ifs at h with h1 h2 h3 h4 <;>
    first
      | (cases h; simp_all [dirAvail])
      | cases h

/-- Claim C5 (confirmed): one step of the frontier loop never reaches the
`fatal ("Unexpected maze path")` branch (the drawn `v = random_int(n)` is
below the summed weight `n` of available directions, and the selection
chain then always commits to an available branch); when the summed weight
is zero the node is discarded and the maze array is untouched; and
`random_int` with a positive limit always returns a value in `[0, limit)`. -/
theorem C5_theorem :
    (∀ (P : Params) (r1 r2 : Nat) (p : Pos) (rest : List Pos)
        (st : GenState), (genStep P r1 r2 p rest st).isSome = true) ∧
    (∀ (P : Params) (r1 r2 : Nat) (p : Pos) (rest : List Pos)
        (st : GenState),
      nAvailB (decide (testP P st.maze (p.x + 1) p.y = 0))
          (decide (testP P st.maze (p.x - 1) p.y = 0))
          (decide (testP P st.maze p.x (p.y - 1) = 0))
          (decide (testP P st.maze p.x (p.y + 1) = 0)) = 0 →
        genStep P r1 r2 p rest st = some ({ st with queue := rest }, none)) ∧
    (∀ (aR aL aD aU : Bool) (v : Int), 0 ≤ v →
        v < (nAvailB aR aL aD aU : Int) →
        ∃ d, pickDir aR aL aD aU v = some d ∧
          dirAvail aR aL aD aU d = true) ∧
    (∀ (s : Nat) (limit : Int), 0 < limit →
        0 ≤ (random_int s limit).2 ∧ (random_int s limit).2 < limit) := by
  have hpick : ∀ (aR aL aD aU : Bool) (v : Int), 0 ≤ v →
      v < (nAvailB aR aL aD aU : Int) →
      ∃ d, pickDir aR aL aD aU v = some d ∧
        dirAvail aR aL aD aU d = true := by
    intro aR aL aD aU v h0 h1
    cases hpd : pickDir aR aL aD aU v with
    | none =>
        exact absurd (pickDir_none_ge aR aL aD aU v h0 hpd) (by omega)
    | some d => exact ⟨d, rfl, pickDir_avail aR aL aD aU v d hpd⟩
  refine ⟨?_, ?_, hpick, ?_⟩
  · intro P r1 r2 p rest st
    simp only [genStep]
    split
    · rfl
    · rename_i hn
      cases hpd : pickDir (decide (testP P st.maze (p.x + 1) p.y = 0))
          (decide (testP P st.maze (p.x - 1) p.y = 0))
          (decide (testP P st.maze p.x (p.y - 1) = 0))
          (decide (testP P st.maze p.x (p.y + 1) = 0))
          ((r1 % nAvailB (decide (testP P st.maze (p.x + 1) p.y = 0))
              (decide (testP P st.maze (p.x - 1) p.y = 0))
              (decide (testP P st.maze p.x (p.y - 1) = 0))
              (decide (testP P st.maze p.x (p.y + 1) = 0)) : Nat) : Int) with
      | none =>
          exfalso
          have hge := pickDir_none_ge _ _ _ _ _ (by omega) hpd
          have hlt := Nat.mod_lt r1 (Nat.pos_of_ne_zero hn)
          omega
      | some d => simp
  · intro P r1 r2 p rest st h
    simp only [genStep]
    rw [if_pos h]
  · intro s limit h
    unfold random_int
    rw [if_neg (by omega)]
    constructor
    · exact Int.emod_nonneg _ (by omega)
    · exact Int.emod_lt_of_pos _ h

/-- Witness for C5: a concrete available-direction selection and a
concrete `random_int` draw. -/
theorem C5_witness :
    (∃ d, pickDir true false false false 0 = some d ∧
        dirAvail true false false false d = true) ∧
    (0 ≤ (random_int 1 10).2 ∧ (random_int 1 10).2 < 10) :=
  ⟨C5_theorem.2.2.1 true false false false 0 (by decide) (by decide),
    C5_theorem.2.2.2 1 10 (by decide)⟩

/-! ### Claim C8: the "Too small" check -/

/-- Claim C8 (confirmed): when the computed grid has `W = 2` or `H = 0`,
`makemaze` fails with the "Too small" error (src/puzzlebox.c:842-843);
the check precedes the maze build and every point emission (the first
`polyhedron` point output is src/puzzlebox.c:1127-1152), so no 3D point
is emitted. -/
theorem C8_theorem (P : Params) (m0 : Maze) (rng : Nat → Nat × Nat)
    (fuel : Nat) (h : P.W = 2 ∨ P.H = 0) :
    makemaze P m0 rng fuel = .error "Too small" := by
  unfold makemaze
  rw [if_pos (by omega)]

/-- Witness for C8 at `W = 2`, `H = 5`. -/
theorem C8_witness :
    makemaze ⟨2, 5, 0, 1, false, false, false, false, 0⟩ (fun _ _ => 0)
        (fun _ => (0, 0)) 10 = .error "Too small" :=
  C8_theorem ⟨2, 5, 0, 1, false, false, false, false, 0⟩ (fun _ _ => 0)
    (fun _ => (0, 0)) 10 (Or.inl rfl)

/-! ### Concrete generation runs (counterexamples for C1 and C7)

A small default-shaped configuration: `W = 6`, `H = 4`, `helix = 0`,
`nubs = 3`, no flip, maze outside, `mazecomplexity = 5`.  The initial
`FLAGI` marking plays the role of the height-band clearing of
src/puzzlebox.c:888-892. -/

def smallParams : Params := ⟨6, 4, 0, 3, false, false, false, false, 5⟩

/-- Initial marking for the C1 run: only row `y = 1` is usable. -/
def C1m0 : Maze := fun _ y => if y = 1 then 0 else FLAGI

/-- Initial marking for the C7 run: row `y = 1` plus the cells
`(1, 2), (3, 2), (5, 2)` (one symmetric cell group in row 2) are usable. -/
def C7m0 : Maze := fun x y =>
  if y = 1 ∨ (y = 2 ∧ (x = 1 ∨ x = 3 ∨ x = 5)) then 0 else FLAGI

/-- Fallback result used to project an `Except` (never reached in the
concrete runs below, which complete). -/
def fallbackRes : MazeResult := ⟨fun _ _ => 0, 0, 0, 0, [], false⟩

/-- The completed C1 generation run. -/
def C1res : MazeResult :=
  match makemaze smallParams C1m0 (fun _ => (0, 0)) 10 with
  | .ok r => r
  | .error _ => fallbackRes

/-- The completed C7 generation run. -/
def C7res : MazeResult :=
  match makemaze smallParams C7m0 (fun _ => (0, 0)) 10 with
  | .ok r => r
  | .error _ => fallbackRes

/-- Claim C1 counterexample: `nubs = 3 > 1`, non-test-pattern mode, and
the run completes (the queue empties; here the frontier finds no free
direction, and the entry channel is then carved down every symmetric
column).  The physical copies of the logical cell `(0, 1)` are
`(0, 1), (2, 1), (4, 1)` (the next copy being `stepCopy (0,1) = (2,1)`),
yet the maze array stores mask `FLAGR ||| FLAGU = 6` at `(0, 1)` and mask
`FLAGU = 4` at `(2, 1)`: the stored open-edge masks of the copies are NOT
identical.  (The seeded `maze[0][helix+1] |= FLAGR` of
src/puzzlebox.c:913 is written to one physical cell only, and no later
write can copy it: every write is guarded by a `test` that the seeded
group already fails.) -/
theorem C1_counterexample :
    C1res.complete = true ∧
    stepCopy 6 0 3 (0, 1) = (2, 1) ∧
    C1res.maze 0 1 = (FLAGR ||| FLAGU) ∧
    C1res.maze 2 1 = FLAGU ∧
    C1res.maze 0 1 ≠ C1res.maze 2 1 := by decide

/-- Claim C7 counterexample: the run completes, and its only expansion
connects the cell `(1, 2)` — the unique cell reached during expansion;
its upward neighbour group reports `Invalid` and (with `flip = false`)
it is exit-eligible, so under the claim the exit cell would be `(1, 2)`
(column 1, unlocking angle `360·1/6 = 60`).  But the tracker of
src/puzzlebox.c:1028-1032 records a candidate only when the discovering
node's depth `p->n` strictly exceeds `max`, which is initialised to 0;
the event's depth (`p->n = 0`) is therefore never recorded, and the code
keeps exit column `maxx = 0` (hence, by the `entrya` formula proved in
`C7_theorem`, unlocking angle 0) instead. -/
theorem C7_counterexample :
    C7res.complete = true ∧
    C7res.trace = [⟨1, 2, 0, true⟩] ∧
    testP smallParams C7res.maze 1 3 &&& FLAGI ≠ 0 ∧
    C7res.maxx = 0 := by decide

/-! ### Claim C7 (amended): what the exit tracker computes -/

/-- The `max`/`maxx` update of one expansion (src/puzzlebox.c:1028-1032),
as a fold step over discovery events. -/
def exitUpd (acc : Nat × Int) (e : Discovery) : Nat × Int :=
  if e.depth > acc.1 ∧ e.qual then (e.depth, e.x) else acc

/-- The maximum discovering-node depth over the exit-eligible events. -/
def qmax (tr : List Discovery) : Nat :=
  tr.foldr (fun e a => if e.qual then max e.depth a else a) 0

theorem qmax_cons (e : Discovery) (tl : List Discovery) :
    qmax (e :: tl) =
      if e.qual = true then max e.depth (qmax tl) else qmax tl := rfl

theorem exitFold_spec : ∀ (tr : List Discovery) (m : Nat) (mx : Int),
    (tr.foldl exitUpd (m, mx)).1 = max m (qmax tr) ∧
    ((tr.foldl exitUpd (m, mx)).1 = m → (tr.foldl exitUpd (m, mx)).2 = mx) ∧
    ((tr.foldl exitUpd (m, mx)).1 > m →
      ∃ e ∈ tr, e.qual = true ∧ e.depth = (tr.foldl exitUpd (m, mx)).1 ∧
        e.x = (tr.foldl exitUpd (m, mx)).2) := by
  intro tr
  induction tr with
  | nil =>
      intro m mx
      refine ⟨by simp [qmax], fun _ => rfl, fun h => absurd h (by simp)⟩
  | cons e tl ih =>
      intro m mx
      by_cases hc : e.depth > m ∧ e.qual = true
      · have he : exitUpd (m, mx) e = (e.depth, e.x) := by
          simp [exitUpd, hc.1, hc.2]
        obtain ⟨ihA, ihB, ihC⟩ := ih e.depth e.x
        refine ⟨?_, ?_, ?_⟩
        · rw [List.foldl_cons, he, ihA, qmax_cons, if_pos hc.2]
          simp only [Nat.max_def]
          split_ifs <;> omega
        · intro hm
          rw [List.foldl_cons, he, ihA] at hm
          exfalso
          simp only [Nat.max_def] at hm
          split_ifs at hm <;> omega
        · intro _
          rw [List.foldl_cons, he]
          by_cases hgt : (tl.foldl exitUpd (e.depth, e.x)).1 > e.depth
          · obtain ⟨e2, he2, hqual, hd, hx⟩ := ihC hgt
            exact ⟨e2, List.mem_cons_of_mem e he2, hqual, hd, hx⟩
          · have hge : e.depth ≤ (tl.foldl exitUpd (e.depth, e.x)).1 := by
              rw [ihA]
              simp only [Nat.max_def]
              split_ifs <;> omega
            have heq : (tl.foldl exitUpd (e.depth, e.x)).1 = e.depth := by
              omega
            exact ⟨e, List.mem_cons_self e tl, hc.2, heq.symm,
              (ihB heq).symm⟩
      · have he : exitUpd (m, mx) e = (m, mx) := by
          simp only [exitUpd]
          rw [if_neg]
          intro hcon
          exact hc ⟨hcon.1, hcon.2⟩
        obtain ⟨ihA, ihB, ihC⟩ := ih m mx
        refine ⟨?_, ?_, ?_⟩
        · rw [List.foldl_cons, he, ihA, qmax_cons]
          by_cases hqual : e.qual = true
          · rw [if_pos hqual]
            have hd : e.depth ≤ m := by
              by_contra hcon
              exact hc ⟨by omega, hqual⟩
            simp only [Nat.max_def]
            split_ifs <;> omega
          · rw [if_neg hqual]
        · intro hm
          rw [List.foldl_cons, he] at hm ⊢
          exact ihB hm
        · intro hm
          rw [List.foldl_cons, he] at hm ⊢
          obtain ⟨e2, he2, hqual, hd, hx⟩ := ihC hm
          exact ⟨e2, List.mem_cons_of_mem e he2, hqual, hd, hx⟩

theorem genStep_exit (P : Params) (r1 r2 : Nat) (p : Pos) (rest : List Pos)
    (st st2 : GenState) (d : Option Discovery)
    (h : genStep P r1 r2 p rest st = some (st2, d)) :
    d.toList.foldl exitUpd (st.max, st.maxx) = (st2.max, st2.maxx) := by
  simp only [genStep] at h
  split at h
  · simp only [Option.some.injEq, Prod.mk.injEq] at h
    obtain ⟨h1, h2⟩ := h
    subst h1
    subst h2
    rfl
  · split at h
    · exact Option.noConfusion h
    · simp only [Option.some.injEq, Prod.mk.injEq] at h
      obtain ⟨h1, h2⟩ := h
      subst h1
      subst h2
      simp only [Option.toList_some, List.foldl_cons, List.foldl_nil,
        exitUpd]
      split <;> rfl

theorem genRun_exitFold (P : Params) (rng : Nat → Nat × Nat) :
    ∀ (fuel i : Nat) (st stf : GenState) (tr : List Discovery) (done : Bool),
      genRun P rng fuel i st = .ok (stf, tr, done) →
      (stf.max, stf.maxx) = tr.foldl exitUpd (st.max, st.maxx) := by
  intro fuel
  induction fuel with
  | zero =>
      intro i st stf tr done h
      simp only [genRun, Except.ok.injEq, Prod.mk.injEq] at h
      obtain ⟨h1, h2, _⟩ := h
      subst h1
      subst h2
      rfl
  | succ fuel ih =>
      intro i st stf tr done h
      cases hq : st.queue with
      | nil =>
          simp only [genRun, hq, Except.ok.injEq, Prod.mk.injEq] at h
          obtain ⟨h1, h2, _⟩ := h
          subst h1
          subst h2
          rfl
      | cons p rest =>
          simp only [genRun, hq] at h
          split at h
          · exact Except.noConfusion h
          · rename_i st2 d hs
            split at h
            · exact Except.noConfusion h
            · rename_i stf2 tr2 dn hr
              simp only [Except.ok.injEq, Prod.mk.injEq] at h
              obtain ⟨h1, h2, _⟩ := h
              rw [← h1, ← h2]
              rw [List.foldl_append,
                genStep_exit P (rng i).1 (rng i).2 p rest st st2 d hs]
              exact ih (i + 1) st2 stf2 tr2 dn hr

/-- Claim C7 (amended): over any completed (or partial) generation run
started with `max = maxx = 0`, the exit tracker computes exactly: `max`
is the largest discovering-node depth (`p->n`) among the exit-eligible
expansions — those whose new cell's upward neighbour group reports
`Invalid` and, when `flip` and not `inside`, whose x-coordinate is a
multiple of `W / nubs`; when that largest depth is positive, `maxx` is
the x-coordinate of such a maximal event; when no eligible expansion has
positive discovering depth (in particular events at depth 0 are never
recorded), `maxx` keeps its initial value 0.  The unlocking angle
`entrya` produced by `makemaze` is `360 * maxx / W` degrees. -/
theorem C7_theorem (P : Params) (rng : Nat → Nat × Nat) (fuel i : Nat)
    (st stf : GenState) (tr : List Discovery) (done : Bool)
    (h : genRun P rng fuel i st = .ok (stf, tr, done))
    (h0 : st.max = 0) (h1 : st.maxx = 0) :
    (stf.max = qmax tr ∧
      (stf.max = 0 → stf.maxx = 0) ∧
      (0 < stf.max →
        ∃ e ∈ tr, e.qual = true ∧ e.depth = stf.max ∧ e.x = stf.maxx)) ∧
    (∀ (Q : Params) (m0 : Maze) (rng2 : Nat → Nat × Nat) (fuel2 : Nat)
        (r : MazeResult), makemaze Q m0 rng2 fuel2 = .ok r →
      r.entrya = 360 * (r.maxx : ℚ) / (Q.W : ℚ)) := by
  constructor
  · have hf := genRun_exitFold P rng fuel i st stf tr done h
    rw [h0, h1] at hf
    obtain ⟨hA, hB, hC⟩ := exitFold_spec tr 0 0
    have hmax : stf.max = (tr.foldl exitUpd (0, 0)).1 := congrArg Prod.fst hf
    have hmaxx : stf.maxx = (tr.foldl exitUpd (0, 0)).2 :=
      congrArg Prod.snd hf
    refine ⟨?_, ?_, ?_⟩
    · rw [hmax, hA]
      exact Nat.zero_max _
    · intro hm
      rw [hmax] at hm
      rw [hmaxx]
      exact hB hm
    · intro hm
      rw [hmax] at hm
      rw [hmax, hmaxx]
      exact hC hm
  · intro Q m0 rng2 fuel2 r hr
    simp only [makemaze] at hr
    split at hr
    · exact Except.noConfusion hr
    · split at hr
      · simp only [Except.ok.injEq] at hr
        subst hr
        rfl
      · split at hr
        · exact Except.noConfusion hr
        · split at hr
          · simp only [Except.ok.injEq] at hr
            subst hr
            rfl
          · exact Except.noConfusion hr

/-- Witness for the amended C7 on the one-step empty-queue run. -/
theorem C7_witness :
    ((⟨fun _ _ => 0, [], 0, 0⟩ : GenState).max = qmax [] ∧
      ((⟨fun _ _ => 0, [], 0, 0⟩ : GenState).max = 0 →
        (⟨fun _ _ => 0, [], 0, 0⟩ : GenState).maxx = 0) ∧
      (0 < (⟨fun _ _ => 0, [], 0, 0⟩ : GenState).max →
        ∃ e ∈ ([] : List Discovery), e.qual = true ∧
          e.depth = (⟨fun _ _ => 0, [], 0, 0⟩ : GenState).max ∧
          e.x = (⟨fun _ _ => 0, [], 0, 0⟩ : GenState).maxx)) ∧
    (∀ (Q : Params) (m0 : Maze) (rng2 : Nat → Nat × Nat) (fuel2 : Nat)
        (r : MazeResult), makemaze Q m0 rng2 fuel2 = .ok r →
      r.entrya = 360 * (r.maxx : ℚ) / (Q.W : ℚ)) :=
  C7_theorem smallParams (fun _ => (0, 0)) 1 0 ⟨fun _ _ => 0, [], 0, 0⟩
    ⟨fun _ _ => 0, [], 0, 0⟩ [] true rfl rfl rfl

/-! ### Claim C9: what test-pattern mode opens

The fill only ever ORs in the direction bits `FLAGR` and `FLAGL`, so the
`FLAGI` bit of every stored byte — and hence of every group query — is
unchanged throughout; the validity test of each step therefore agrees
with the same test on the initial maze, and the final maze is the initial
maze plus exactly the rightward/leftward bits of the valid pairs. -/

theorem and_flagI_or (v f : Nat) (hf : f &&& FLAGI = 0) :
    (v ||| f) &&& FLAGI = v &&& FLAGI := by
  rw [and_lor_distrib, hf]
  simp

/-- `m` and `m2` store the same `FLAGI` bit everywhere. -/
def flagICompat (m m2 : Maze) : Prop :=
  ∀ a b : Int, m a b &&& FLAGI = m2 a b &&& FLAGI

theorem orFlag_flagI (m : Maze) (x y : Int) (f : Nat) (hf : f &&& FLAGI = 0) :
    flagICompat (orFlag m x y f) m := by
  intro a b
  unfold orFlag
  split
  · exact and_flagI_or _ f hf
  · rfl

theorem cellFlag_flagI_congr (H : Int) (m m2 : Maze) (h : flagICompat m m2)
    (x y : Int) : cellFlag H m x y &&& FLAGI = cellFlag H m2 x y &&& FLAGI := by
  unfold cellFlag
  split
  · rfl
  · exact h x y

theorem testGo_flagI_congr (W H helix nubs : Int) (m m2 : Maze)
    (h : flagICompat m m2) :
    ∀ (n : Nat) (p : Int × Int),
      testGo W H helix nubs m n p &&& FLAGI =
        testGo W H helix nubs m2 n p &&& FLAGI
  | 0, _ => rfl
  | 1, p => cellFlag_flagI_congr H m m2 h p.1 p.2
  | n + 2, p => by
      rw [testGo, testGo, and_lor_distrib, and_lor_distrib,
        cellFlag_flagI_congr H m m2 h p.1 p.2,
        testGo_flagI_congr W H helix nubs m m2 h (n + 1)
          (stepCopy W helix nubs p)]

theorem testP_flagI_congr (P : Params) (m m2 : Maze) (h : flagICompat m m2)
    (x y : Int) : testP P m x y &&& FLAGI = testP P m2 x y &&& FLAGI :=
  testGo_flagI_congr P.W P.H P.helix P.nubs m m2 h P.nubs.toNat
    (wrap P.W P.helix x y)

theorem pairValid_congr (P : Params) (m m2 : Maze) (h : flagICompat m m2)
    (X Y : Int) : pairValid P m X Y ↔ pairValid P m2 X Y := by
  unfold pairValid
  rw [testP_flagI_congr P m m2 h X Y, testP_flagI_congr P m m2 h (X + 1) Y]

theorem testStep_flagI (P : Params) (m : Maze) (X Y : Int) :
    flagICompat (testStep P m X Y) m := by
  intro a b
  unfold testStep
  split
  · exact ((orFlag_flagI _ _ _ FLAGL (by decide)) a b).trans
      ((orFlag_flagI m X Y FLAGR (by decide)) a b)
  · rfl

/-- Pointwise value of one test-pattern step. -/
theorem testStep_val (P : Params) (m : Maze) (X Y a b : Int) :
    testStep P m X Y a b =
      m a b |||
        (if pairValid P m X Y ∧ a = X ∧ b = Y then FLAGR else 0) |||
        (if pairValid P m X Y ∧ a = (wrapR P (X, Y)).1 ∧
            b = (wrapR P (X, Y)).2 then FLAGL else 0) := by
  by_cases hc : pairValid P m X Y
  · simp only [testStep, if_pos hc, orFlag]
    by_cases h1 : a = X ∧ b = Y
    · by_cases h2 : a = (wrapR P (X, Y)).1 ∧ b = (wrapR P (X, Y)).2
      · rw [if_pos h2, if_pos h1, if_pos ⟨hc, h1⟩, if_pos ⟨hc, h2⟩]
      · rw [if_neg h2, if_pos h1, if_pos ⟨hc, h1⟩,
          if_neg (fun hcon => h2 ⟨hcon.2.1, hcon.2.2⟩)]
        simp
    · by_cases h2 : a = (wrapR P (X, Y)).1 ∧ b = (wrapR P (X, Y)).2
      · rw [if_pos h2, if_neg h1,
          if_neg (fun hcon => h1 ⟨hcon.2.1, hcon.2.2⟩), if_pos ⟨hc, h2⟩]
        simp
      · rw [if_neg h2, if_neg h1,
          if_neg (fun hcon => h1 ⟨hcon.2.1, hcon.2.2⟩),
          if_neg (fun hcon => h2 ⟨hcon.2.1, hcon.2.2⟩)]
        simp
  · simp [testStep, hc]

/-- The bits the steps of `L` contribute to the cell `(a, b)`. -/
def orWrites (P : Params) (m0 : Maze) (L : List (Int × Int))
    (a b : Int) : Nat :=
  (L.map (fun c =>
    (if pairValid P m0 c.1 c.2 ∧ a = c.1 ∧ b = c.2 then FLAGR else 0) |||
      (if pairValid P m0 c.1 c.2 ∧ a = (wrapR P c).1 ∧ b = (wrapR P c).2
        then FLAGL else 0))).foldr (· ||| ·) 0

theorem testFill_go (P : Params) (m0 : Maze) :
    ∀ (L : List (Int × Int)) (m : Maze), flagICompat m m0 →
      ∀ a b : Int,
        (L.foldl (fun mm c => testStep P mm c.1 c.2) m) a b =
          m a b ||| orWrites P m0 L a b
  | [], m, _, a, b => by simp [orWrites]
  | c :: L, m, hm, a, b => by
      simp only [List.foldl_cons]
      rw [testFill_go P m0 L (testStep P m c.1 c.2)
        (fun a2 b2 => (testStep_flagI P m c.1 c.2 a2 b2).trans (hm a2 b2))
        a b]
      rw [testStep_val]
      have hpv := pairValid_congr P m m0 hm c.1 c.2
      simp only [hpv, orWrites, List.map_cons, List.foldr_cons]
      simp [Nat.lor_assoc]

theorem foldr_lor_map_split {α : Type} (f g : α → Nat) :
    ∀ L : List α,
      (L.map (fun c => f c ||| g c)).foldr (· ||| ·) 0 =
        (L.map f).foldr (· ||| ·) 0 ||| (L.map g).foldr (· ||| ·) 0
  | [] => by simp
  | c :: L => by
      simp only [List.map_cons, List.foldr_cons, foldr_lor_map_split f g L]
      rw [Nat.lor_assoc, Nat.lor_assoc]
      congr 1
      rw [← Nat.lor_assoc, Nat.lor_comm (g c), Nat.lor_assoc]

theorem foldr_lor_ite {α : Type} (Q : α → Prop) [DecidablePred Q] (w : Nat) :
    ∀ L : List α,
      (L.map (fun c => if Q c then w else 0)).foldr (· ||| ·) 0 =
        if ∃ c ∈ L, Q c then w else 0
  | [] => by simp
  | c :: L => by
      simp only [List.map_cons, List.foldr_cons, foldr_lor_ite Q w L]
      by_cases hq : Q c
      · by_cases he : ∃ x ∈ L, Q x
        · rw [if_pos hq, if_pos he, if_pos (show ∃ x ∈ c :: L, Q x from
            ⟨c, List.mem_cons_self c L, hq⟩)]
          simp
        · rw [if_pos hq, if_neg he, if_pos (show ∃ x ∈ c :: L, Q x from
            ⟨c, List.mem_cons_self c L, hq⟩)]
          simp
      · by_cases he : ∃ x ∈ L, Q x
        · rw [if_neg hq, if_pos he, if_pos (show ∃ x ∈ c :: L, Q x from by
            obtain ⟨x, hx, hQx⟩ := he
            exact ⟨x, List.mem_cons_of_mem c hx, hQx⟩)]
          simp
        · rw [if_neg hq, if_neg he, if_neg (show ¬∃ x ∈ c :: L, Q x from by
            rintro ⟨x, hx, hQx⟩
            rcases List.mem_cons.mp hx with h | h
            · exact hq (h ▸ hQx)
            · exact he ⟨x, h, hQx⟩)]
          simp

theorem mem_cellList (W H a b : Int) :
    (a, b) ∈ cellList W H ↔ 0 ≤ a ∧ a < W ∧ 0 ≤ b ∧ b < H := by
  constructor
  · intro hmem
    rw [cellList, List.mem_flatMap] at hmem
    obtain ⟨Y, hY, hmem2⟩ := hmem
    rw [List.mem_map] at hmem2
    obtain ⟨X, hX, heq⟩ := hmem2
    rw [List.mem_range] at hY hX
    simp only [Prod.mk.injEq, Int.ofNat_eq_natCast] at heq
    obtain ⟨h5, h6⟩ := heq
    subst h5
    subst h6
    omega
  · rintro ⟨h1, h2, h3, h4⟩
    rw [cellList, List.mem_flatMap]
    refine ⟨b.toNat, ?_, ?_⟩
    · rw [List.mem_range]
      omega
    · rw [List.mem_map]
      refine ⟨a.toNat, ?_, ?_⟩
      · rw [List.mem_range]
        omega
      · simp only [Prod.mk.injEq, Int.ofNat_eq_natCast]
        omega

/-- The (unique) source cell whose leftward write lands on `(x, y)`:
either the plain left neighbour, or — at the seam — the last column of
the row `helix` below. -/
abbrev leftSrc (P : Params) (m : Maze) (x y : Int) : Prop :=
  (1 ≤ x ∧ pairValid P m (x - 1) y) ∨
    (x = 0 ∧ 0 ≤ y - P.helix ∧ y - P.helix < P.H ∧
      pairValid P m (P.W - 1) (y - P.helix))

/-- Claim C9 (confirmed): the maze produced by test-pattern mode is the
initial maze plus, for every horizontally adjacent valid pair, exactly a
`FLAGR` on the left cell and a `FLAGL` on the (seam-wrapped) right cell —
and nothing else: every cell's final byte is its initial byte OR-ed with
`FLAGR` when the cell heads a valid pair and with `FLAGL` when some valid
pair wraps onto it. -/
theorem C9_theorem (P : Params) (m0 : Maze) (x y : Int) (hx0 : 0 ≤ x)
    (hx1 : x < P.W) (hy0 : 0 ≤ y) (hy1 : y < P.H) :
    testFill P m0 x y =
      m0 x y ||| (if pairValid P m0 x y then FLAGR else 0) |||
        (if leftSrc P m0 x y then FLAGL else 0) := by
  have hfill := testFill_go P m0 (cellList P.W P.H) m0 (fun _ _ => rfl) x y
  unfold testFill
  rw [hfill]
  simp only [orWrites]
  rw [foldr_lor_map_split
    (fun c => if pairValid P m0 c.1 c.2 ∧ x = c.1 ∧ y = c.2 then FLAGR
      else 0)
    (fun c => if pairValid P m0 c.1 c.2 ∧ x = (wrapR P c).1 ∧
        y = (wrapR P c).2 then FLAGL else 0)
    (cellList P.W P.H)]
  rw [foldr_lor_ite
    (fun c => pairValid P m0 c.1 c.2 ∧ x = c.1 ∧ y = c.2) FLAGR
    (cellList P.W P.H)]
  rw [foldr_lor_ite
    (fun c => pairValid P m0 c.1 c.2 ∧ x = (wrapR P c).1 ∧
      y = (wrapR P c).2) FLAGL
    (cellList P.W P.H)]
  have h1 : (∃ c ∈ cellList P.W P.H,
      pairValid P m0 c.1 c.2 ∧ x = c.1 ∧ y = c.2) ↔ pairValid P m0 x y := by
    constructor
    · rintro ⟨⟨cx, cy⟩, _, hpv, hx, hy⟩
      rw [hx, hy]
      exact hpv
    · intro hpv
      exact ⟨(x, y), (mem_cellList P.W P.H x y).mpr ⟨hx0, hx1, hy0, hy1⟩,
        hpv, rfl, rfl⟩
  have h2 : (∃ c ∈ cellList P.W P.H,
      pairValid P m0 c.1 c.2 ∧ x = (wrapR P c).1 ∧ y = (wrapR P c).2) ↔
      leftSrc P m0 x y := by
    constructor
    · rintro ⟨⟨cx, cy⟩, hmem, hpv, hx, hy⟩
      rw [mem_cellList] at hmem
      obtain ⟨hc1, hc2, hc3, hc4⟩ := hmem
      have hpair : (x, y) = wrapR P (cx, cy) := by
        rw [Prod.ext_iff]
        exact ⟨hx, hy⟩
      rw [wrapR] at hpair
      by_cases hw : P.W ≤ cx + 1
      · rw [if_pos hw] at hpair
        simp only [Prod.mk.injEq] at hpair
        obtain ⟨hpx, hpy⟩ := hpair
        right
        have hcx : cx = P.W - 1 := by omega
        have hcy : cy = y - P.helix := by omega
        refine ⟨by omega, by omega, by omega, ?_⟩
        rw [← hcx, ← hcy]
        exact hpv
      · rw [if_neg hw] at hpair
        simp only [Prod.mk.injEq] at hpair
        obtain ⟨hpx, hpy⟩ := hpair
        left
        have hcx : cx = x - 1 := by omega
        have hcy : cy = y := by omega
        refine ⟨by omega, ?_⟩
        rw [← hcx, ← hcy]
        exact hpv
    · rintro (⟨hx2, hpv⟩ | ⟨hx2, hy2, hy3, hpv⟩)
      · refine ⟨(x - 1, y),
          (mem_cellList P.W P.H (x - 1) y).mpr
            ⟨by omega, by omega, hy0, hy1⟩, hpv, ?_, ?_⟩
        · rw [wrapR, if_neg (by simp only []; omega)]
          try omega
        · rw [wrapR, if_neg (by simp only []; omega)]
          try omega
      · refine ⟨(P.W - 1, y - P.helix),
          (mem_cellList P.W P.H (P.W - 1) (y - P.helix)).mpr
            ⟨by omega, by omega, hy2, hy3⟩, hpv, ?_, ?_⟩
        · rw [wrapR, if_pos (by simp only []; omega)]
          show x = P.W - 1 + 1 - P.W
          omega
        · rw [wrapR, if_pos (by simp only []; omega)]
          show y = y - P.helix + P.helix
          omega
  simp only [h1, h2]
  rw [← Nat.lor_assoc]

/-- Witness for C9 on the small configuration at the cell `(1, 1)`. -/
theorem C9_witness :
    testFill smallParams C1m0 1 1 =
      C1m0 1 1 ||| (if pairValid smallParams C1m0 1 1 then FLAGR else 0) |||
        (if leftSrc smallParams C1m0 1 1 then FLAGL else 0) :=
  C9_theorem smallParams C1m0 1 1 (by decide) (by decide) (by decide)
    (by decide)

/-! ### The mesh stitcher's slice-advance routine (src/puzzlebox.c:1189-1259)

Per angular slice the stitcher keeps the last-emitted left/right boundary
point indices (sign encodes recess vs face, 0 = not set yet) and the
ordered list of all point indices emitted on the slice.  `slice S l r`
advances slice `S` to the new boundary pair, emitting the transition
faces; face output is modelled as the list of emitted faces (each an
ordered list of point indices, as printed), and the two `fatal ("Bad
render")` exits as errors. -/

/-- One slice's state: `s[S].l`, `s[S].r` and the point history `s[S].p`
(`s[S].n` is its length). -/
structure SliceRec where
  l : Int
  r : Int
  pts : List Int
deriving DecidableEq, Repr

/-- Update one entry of the slice-state array. -/
def setSlice (st : Int → SliceRec) (S : Int) (v : SliceRec) :
    Int → SliceRec :=
  fun i => if i = S then v else st i

/-- The inline `sgn` helper of `slice` (src/puzzlebox.c:1197-1204). -/
def sgnC (x : Int) : Int := if x < 0 then -1 else if 0 < x then 1 else 0

/-- The sign-filtered collection of history entries with indices in
`[n1, n2)` whose C-sign matches the reference boundary (the two scan
loops of src/puzzlebox.c:1225-1233 and 1247-1252; the second loop visits
them in descending order, i.e. reversed). -/
def collectSame (pts : List Int) (sref : Int) (n1 n2 : Nat) : List Int :=
  ((pts.drop n1).take (n2 - n1)).filterMap
    (fun q => if sgnC q = sgnC sref then some |q| else none)

/-- The slice-advance routine `slice (S, l, r)` (src/puzzlebox.c:1189-1259):
bounds check, first-use bottom quad, early return when the boundary is
already `(l, r)`, then the two history searches and the fan/ribbon face
emission, and finally the boundary update. -/
def slice (W4 bottom : Int) (st : Int → SliceRec) (S l r : Int) :
    Except String ((Int → SliceRec) × List (List Int)) :=
  if W4 ≤ S then .error "Bad render"
  else
    let init : (Int → SliceRec) × List (List Int) :=
      if (st S).l = 0 then
        let nl := (if l < 0 then -1 else 1) *
          (bottom + S + W4 + (if l < 0 then 0 else W4))
        let nr := (if r < 0 then -1 else 1) *
          (bottom + (S + 1) % W4 + W4 + (if r < 0 then 0 else W4))
        (setSlice st S ⟨nl, nr, (st S).pts⟩,
          [[|nl|, |nr|, (S + 1) % W4, S]])
      else (st, [])
    let st1 := init.1
    if l = (st1 S).l ∧ r = (st1 S).r then .ok (st1, init.2)
    else
      let SR := (S + 1) % W4
      let pts := (st1 S).pts
      let n1 := pts.findIdx (fun q => |q| == |(st1 S).l|)
      let n2 := n1 + (pts.drop n1).findIdx (fun q => |q| == |l|)
      if n1 = pts.length ∨ n2 = pts.length then .error "Bad render"
      else
        let lc := collectSame pts (st1 S).l n1 n2
        let rpts := (st1 SR).pts
        let m1 := rpts.findIdx (fun q => |q| == |(st1 S).r|)
        let m2 := m1 + (rpts.drop m1).findIdx (fun q => |q| == |r|)
        if m1 = rpts.length ∨ m2 = rpts.length then .error "Bad render"
        else
          let rc := (collectSame rpts (st1 S).r m1 m2).reverse
          let faces :=
            if lc.length ≠ 0 then
              [lc ++ [|l|, |r|]] ++
                (if m1 < m2 then [[|r|] ++ rc ++ [|(st1 S).l|]] else [])
            else [[|l|, |r|] ++ rc]
          .ok (setSlice st1 S ⟨l, r, (st1 S).pts⟩, init.2 ++ faces)

/-- Claim C10 (confirmed): advancing an already-initialised slice
(`s[S].l ≠ 0`) to its current stored boundary pair emits no faces and
leaves the whole slice-state array — boundary identities and point
histories — unchanged (the early return of src/puzzlebox.c:1214-1215). -/
theorem C10_theorem (W4 bottom : Int) (st : Int → SliceRec) (S : Int)
    (hS : S < W4) (hl : (st S).l ≠ 0) :
    slice W4 bottom st S ((st S).l) ((st S).r) = .ok (st, []) := by
  simp only [slice]
  rw [if_neg (show ¬W4 ≤ S by omega), if_neg hl]
  simp

/-- Concrete slice-state array for the C10 witness. -/
def C10st : Int → SliceRec := fun _ => ⟨5, -6, [5, -6]⟩

/-- Witness for C10 at slice 3 of a 24-slice ring. -/
theorem C10_witness :
    slice 24 0 C10st 3 ((C10st 3).l) ((C10st 3).r) = .ok (C10st, []) :=
  C10_theorem 24 0 C10st 3 (by decide) (by decide)

end PuzzleBox
